import Mathlib

/-!
Verification development for the golangplus/testing assert package.

The development shallowly embeds the structural diff engine of the package:
the sequence alignment engine invoked by linesEqual, the sequence diff
renderer (linesEqual itself), the mapping diff classifier
(collectMapDiffKeys), the mapping diff renderer (mapDiff / mapValueToStr),
and the dispatching entry points (Equal, StringEqual).

Conventions of the embedding:
- Go string renderings (the results of formatting a value) are taken as
  inputs of type String; elements, keys and values are abstract types
  carrying a rendering function and decidable equality (modelling
  reflect.DeepEqual as structural equality).
- Output written through t.Error / t.Log / t.Logf is modelled as a list of
  strings, one entry per emitted line.  The source position prefix
  (assertPos) is modelled as the empty string, corresponding to
  IncludeFilePosition = false, since it reads the runtime call stack.
- Go maps are modelled as association lists with distinct keys; lookup or
  MapIndex is association list lookup returning an Option.
-/

namespace GolangPlusTesting

/-! ## Alignment engine

The function named match in the Go package (called by linesEqual) is not
part of the shipped sources here; only its caller linesEqual is.  It is
therefore modelled from the spec, which defines it as a dynamic programming
global alignment over two sequence lengths and a cost model. -/

/-- One backtrace move of the alignment: a diagonal move pairing expected
position i with actual position j, a deletion of expected position i, or an
insertion of actual position j. -/
inductive Move where
  | subst (i j : Nat) : Move
  | del (i : Nat) : Move
  | ins (j : Nat) : Move
deriving DecidableEq, Repr

/-- Modelled from the spec: the dynamic programming cost table of the
alignment engine (the function match, absent from the sources).  D sub del
ins i j is the table entry for the first i expected elements against the
first j actual elements, with the recurrences of the spec. -/
def D (sub : Nat → Nat → Nat) (del ins : Nat → Nat) : Nat → Nat → Nat
  | 0, 0 => 0
  | i + 1, 0 => D sub del ins i 0 + del i
  | 0, j + 1 => D sub del ins 0 j + ins j
  | i + 1, j + 1 =>
      min (D sub del ins i j + sub i j)
        (min (D sub del ins i (j + 1) + del i) (D sub del ins (i + 1) j + ins j))
  termination_by i j => (i, j)

/-- Modelled from the spec: the backtrace of the alignment engine from
entry (i, j) of the table down to (0, 0), breaking ties by preferring
substitution over deletion over insertion.  The produced move list is in
reverse chronological order: the head is the last move of the alignment. -/
def trace (sub : Nat → Nat → Nat) (del ins : Nat → Nat) : Nat → Nat → List Move
  | 0, 0 => []
  | i + 1, 0 => Move.del i :: trace sub del ins i 0
  | 0, j + 1 => Move.ins j :: trace sub del ins 0 j
  | i + 1, j + 1 =>
      if D sub del ins i j + sub i j ≤ D sub del ins i (j + 1) + del i ∧
          D sub del ins i j + sub i j ≤ D sub del ins (i + 1) j + ins j then
        Move.subst i j :: trace sub del ins i j
      else if D sub del ins i (j + 1) + del i ≤ D sub del ins (i + 1) j + ins j then
        Move.del i :: trace sub del ins i (j + 1)
      else Move.ins j :: trace sub del ins (i + 1) j
  termination_by i j => (i, j)

/-- Total cost of a move list under a cost model. -/
def traceCost (sub : Nat → Nat → Nat) (del ins : Nat → Nat) : List Move → Nat
  | [] => 0
  | Move.subst i j :: ms => sub i j + traceCost sub del ins ms
  | Move.del i :: ms => del i + traceCost sub del ins ms
  | Move.ins j :: ms => ins j + traceCost sub del ins ms

/-- A move list (in reverse chronological order) is a valid global
alignment of the first n expected positions against the first m actual
positions: every position of each side is consumed exactly once, in
order. -/
inductive Aligns : Nat → Nat → List Move → Prop where
  | nil : Aligns 0 0 []
  | subst {i j : Nat} {ms : List Move} :
      Aligns i j ms → Aligns (i + 1) (j + 1) (Move.subst i j :: ms)
  | del {i j : Nat} {ms : List Move} :
      Aligns i j ms → Aligns (i + 1) j (Move.del i :: ms)
  | ins {i j : Nat} {ms : List Move} :
      Aligns i j ms → Aligns i (j + 1) (Move.ins j :: ms)

/-- The matched pairs of a move list: the (expected, actual) index pairs of
its diagonal moves. -/
def pairsOf : List Move → List (Nat × Nat)
  | [] => []
  | Move.subst i j :: ms => (i, j) :: pairsOf ms
  | Move.del _ :: ms => pairsOf ms
  | Move.ins _ :: ms => pairsOf ms

/-- Fuel-indexed version of the cost table, structurally recursive on the
fuel so that the kernel can evaluate it; it agrees with D whenever the fuel
is at least i + j. -/
def Dfuel (sub : Nat → Nat → Nat) (del ins : Nat → Nat) : Nat → Nat → Nat → Nat
  | _, 0, 0 => 0
  | f + 1, i + 1, 0 => Dfuel sub del ins f i 0 + del i
  | f + 1, 0, j + 1 => Dfuel sub del ins f 0 j + ins j
  | f + 1, i + 1, j + 1 =>
      min (Dfuel sub del ins f i j + sub i j)
        (min (Dfuel sub del ins f i (j + 1) + del i)
          (Dfuel sub del ins f (i + 1) j + ins j))
  | 0, _, _ => 0

theorem Dfuel_eq (sub : Nat → Nat → Nat) (del ins : Nat → Nat) :
    ∀ f i j, i + j ≤ f → Dfuel sub del ins f i j = D sub del ins i j := by
  intro f
  induction f with
  | zero =>
      intro i j h
      have hi : i = 0 := by omega
      have hj : j = 0 := by omega
      subst hi; subst hj
      simp [Dfuel, D]
  | succ f ih =>
      intro i j h
      match i, j with
      | 0, 0 => simp [Dfuel, D]
      | i + 1, 0 =>
          rw [Dfuel, D, ih i 0 (by omega)]
      | 0, j + 1 =>
          rw [Dfuel, D, ih 0 j (by omega)]
      | i + 1, j + 1 =>
          rw [Dfuel, D, ih i j (by omega), ih i (j + 1) (by omega), ih (i + 1) j (by omega)]

/-- Fuel-indexed version of the backtrace, structurally recursive on the
fuel; agrees with trace whenever the fuel is at least i + j. -/
def traceFuel (sub : Nat → Nat → Nat) (del ins : Nat → Nat) : Nat → Nat → Nat → List Move
  | _, 0, 0 => []
  | f + 1, i + 1, 0 => Move.del i :: traceFuel sub del ins f i 0
  | f + 1, 0, j + 1 => Move.ins j :: traceFuel sub del ins f 0 j
  | f + 1, i + 1, j + 1 =>
      if Dfuel sub del ins f i j + sub i j ≤ Dfuel sub del ins f i (j + 1) + del i ∧
          Dfuel sub del ins f i j + sub i j ≤ Dfuel sub del ins f (i + 1) j + ins j then
        Move.subst i j :: traceFuel sub del ins f i j
      else if Dfuel sub del ins f i (j + 1) + del i ≤ Dfuel sub del ins f (i + 1) j + ins j then
        Move.del i :: traceFuel sub del ins f i (j + 1)
      else Move.ins j :: traceFuel sub del ins f (i + 1) j
  | 0, _, _ => []

theorem traceFuel_eq (sub : Nat → Nat → Nat) (del ins : Nat → Nat) :
    ∀ f i j, i + j ≤ f → traceFuel sub del ins f i j = trace sub del ins i j := by
  intro f
  induction f with
  | zero =>
      intro i j h
      have hi : i = 0 := by omega
      have hj : j = 0 := by omega
      subst hi; subst hj
      simp [traceFuel, trace]
  | succ f ih =>
      intro i j h
      match i, j with
      | 0, 0 => simp [traceFuel, trace]
      | i + 1, 0 =>
          rw [traceFuel, trace, ih i 0 (by omega)]
      | 0, j + 1 =>
          rw [traceFuel, trace, ih 0 j (by omega)]
      | i + 1, j + 1 =>
          rw [traceFuel, trace, ih i j (by omega), ih i (j + 1) (by omega),
            ih (i + 1) j (by omega),
            Dfuel_eq sub del ins f i j (by omega),
            Dfuel_eq sub del ins f i (j + 1) (by omega),
            Dfuel_eq sub del ins f (i + 1) j (by omega)]

/-- Matching array for the expected side, as returned by the engine:
entry i is the matched actual index, or -1 when position i is unmatched. -/
def expMatOf (n : Nat) (ms : List Move) : List Int :=
  (List.range n).map fun i =>
    match (pairsOf ms).find? (fun p => p.1 = i) with
    | some p => (p.2 : Int)
    | none => -1

/-- Matching array for the actual side: entry j is the matched expected
index, or -1 when position j is unmatched. -/
def actMatOf (m : Nat) (ms : List Move) : List Int :=
  (List.range m).map fun j =>
    match (pairsOf ms).find? (fun p => p.2 = j) with
    | some p => (p.1 : Int)
    | none => -1

/-- Modelled from the spec: the alignment engine (the function match of the
Go package, absent from the sources).  Takes the two lengths and the cost
model and returns the total cost together with the two matching arrays.
Computed through the fuel-indexed table and backtrace so that it evaluates
inside the kernel. -/
def matchFn (n m : Nat) (sub : Nat → Nat → Nat) (del ins : Nat → Nat) :
    Nat × List Int × List Int :=
  (Dfuel sub del ins (n + m) n m,
   expMatOf n (traceFuel sub del ins (n + m) n m),
   actMatOf m (traceFuel sub del ins (n + m) n m))

theorem matchFn_eq (n m : Nat) (sub : Nat → Nat → Nat) (del ins : Nat → Nat) :
    matchFn n m sub del ins =
      (D sub del ins n m,
       expMatOf n (trace sub del ins n m),
       actMatOf m (trace sub del ins n m)) := by
  unfold matchFn
  rw [Dfuel_eq sub del ins (n + m) n m (le_refl _),
    traceFuel_eq sub del ins (n + m) n m (le_refl _)]

/-! Basic facts about the alignment engine. -/

theorem D_le_subst (sub : Nat → Nat → Nat) (del ins : Nat → Nat) (i j : Nat) :
    D sub del ins (i + 1) (j + 1) ≤ D sub del ins i j + sub i j := by
  rw [D]
  exact Nat.min_le_left _ _

theorem D_le_del (sub : Nat → Nat → Nat) (del ins : Nat → Nat) (i j : Nat) :
    D sub del ins (i + 1) (j + 1) ≤ D sub del ins i (j + 1) + del i := by
  rw [D]
  exact le_trans (Nat.min_le_right _ _) (Nat.min_le_left _ _)

theorem D_le_ins (sub : Nat → Nat → Nat) (del ins : Nat → Nat) (i j : Nat) :
    D sub del ins (i + 1) (j + 1) ≤ D sub del ins (i + 1) j + ins j := by
  rw [D]
  exact le_trans (Nat.min_le_right _ _) (Nat.min_le_right _ _)

theorem D_le_del_all (sub : Nat → Nat → Nat) (del ins : Nat → Nat) (i j : Nat) :
    D sub del ins (i + 1) j ≤ D sub del ins i j + del i := by
  cases j with
  | zero => rw [D]
  | succ j => exact D_le_del sub del ins i j

theorem D_le_ins_all (sub : Nat → Nat → Nat) (del ins : Nat → Nat) (i j : Nat) :
    D sub del ins i (j + 1) ≤ D sub del ins i j + ins j := by
  cases i with
  | zero => rw [D]
  | succ i => exact D_le_ins sub del ins i j

/-- The backtrace achieves exactly the table cost. -/
theorem traceCost_trace (sub : Nat → Nat → Nat) (del ins : Nat → Nat) :
    ∀ i j, traceCost sub del ins (trace sub del ins i j) = D sub del ins i j
  | 0, 0 => by simp [trace, traceCost, D]
  | i + 1, 0 => by
      rw [trace, traceCost, traceCost_trace sub del ins i 0, D, Nat.add_comm]
  | 0, j + 1 => by
      rw [trace, traceCost, traceCost_trace sub del ins 0 j, D, Nat.add_comm]
  | i + 1, j + 1 => by
      rw [trace]
      split
      case isTrue h =>
        rw [traceCost, traceCost_trace sub del ins i j, D]
        have h1 := h.1
        have h2 := h.2
        omega
      case isFalse h =>
        split
        case isTrue h2 =>
          rw [traceCost, traceCost_trace sub del ins i (j + 1), D]
          omega
        case isFalse h2 =>
          rw [traceCost, traceCost_trace sub del ins (i + 1) j, D]
          omega
  termination_by i j => (i, j)

/-- The backtrace is a valid alignment of the two index ranges. -/
theorem aligns_trace (sub : Nat → Nat → Nat) (del ins : Nat → Nat) :
    ∀ i j, Aligns i j (trace sub del ins i j)
  | 0, 0 => by rw [trace]; exact Aligns.nil
  | i + 1, 0 => by rw [trace]; exact Aligns.del (aligns_trace sub del ins i 0)
  | 0, j + 1 => by rw [trace]; exact Aligns.ins (aligns_trace sub del ins 0 j)
  | i + 1, j + 1 => by
      rw [trace]
      split
      · exact Aligns.subst (aligns_trace sub del ins i j)
      · split
        · exact Aligns.del (aligns_trace sub del ins i (j + 1))
        · exact Aligns.ins (aligns_trace sub del ins (i + 1) j)
  termination_by i j => (i, j)

/-- The table value is a lower bound on the cost of every valid alignment:
D really is the minimum alignment cost. -/
theorem D_le_aligns (sub : Nat → Nat → Nat) (del ins : Nat → Nat)
    {n m : Nat} {ms : List Move} (h : Aligns n m ms) :
    D sub del ins n m ≤ traceCost sub del ins ms := by
  induction h with
  | nil => simp [D, traceCost]
  | subst h ih =>
      rw [traceCost]
      exact le_trans (D_le_subst sub del ins _ _)
        (by omega)
  | del h ih =>
      rw [traceCost]
      exact le_trans (D_le_del_all sub del ins _ _)
        (by omega)
  | ins h ih =>
      rw [traceCost]
      exact le_trans (D_le_ins_all sub del ins _ _)
        (by omega)

/-- Every matched pair of a valid alignment of n against m lies inside the
index ranges. -/
theorem aligns_pairs_bound {n m : Nat} {ms : List Move} (h : Aligns n m ms) :
    ∀ p ∈ pairsOf ms, p.1 < n ∧ p.2 < m := by
  induction h with
  | nil => intro p hp; simp [pairsOf] at hp
  | subst h ih =>
      intro p hp
      rw [pairsOf] at hp
      rcases List.mem_cons.1 hp with h1 | h1
      · subst h1; exact ⟨Nat.lt_succ_self _, Nat.lt_succ_self _⟩
      · have := ih p h1; omega
  | del h ih =>
      intro p hp
      rw [pairsOf] at hp
      have := ih p hp; omega
  | ins h ih =>
      intro p hp
      rw [pairsOf] at hp
      have := ih p hp; omega

/-- The matched pairs of a valid alignment, listed from last to first, are
strictly decreasing in both components. -/
theorem aligns_pairs_pairwise {n m : Nat} {ms : List Move} (h : Aligns n m ms) :
    List.Pairwise (fun p q => q.1 < p.1 ∧ q.2 < p.2) (pairsOf ms) := by
  induction h with
  | nil => simp [pairsOf]
  | subst h ih =>
      rw [pairsOf]
      exact List.Pairwise.cons (fun q hq => aligns_pairs_bound h q hq) ih
  | del h ih => rw [pairsOf]; exact ih
  | ins h ih => rw [pairsOf]; exact ih

/-- For a pairwise-related list, two members are equal or related one way
or the other. -/
theorem pairwise_mem_rel {α : Type} {R : α → α → Prop} :
    ∀ {l : List α}, List.Pairwise R l → ∀ {p q : α}, p ∈ l → q ∈ l →
      p = q ∨ R p q ∨ R q p := by
  intro l hl
  induction hl with
  | nil => intro p q hp; simp at hp
  | cons hx hrest ih =>
      intro p q hp hq
      rcases List.mem_cons.1 hp with h1 | h1 <;> rcases List.mem_cons.1 hq with h2 | h2
      · left; rw [h1, h2]
      · right; left; rw [h1]; exact hx q h2
      · right; right; rw [h2]; exact hx p h1
      · exact ih h1 h2

/-- Matched pairs of any valid alignment never cross: larger expected
index forces larger actual index. -/
theorem aligns_pairs_mono {n m : Nat} {ms : List Move} (h : Aligns n m ms)
    {i j i' j' : Nat} (h1 : (i, j) ∈ pairsOf ms) (h2 : (i', j') ∈ pairsOf ms)
    (hlt : i < i') : j < j' := by
  rcases pairwise_mem_rel (aligns_pairs_pairwise h) h1 h2 with he | hr | hr
  · cases he; omega
  · simp at hr; omega
  · simp at hr; omega

/-! ## Sequence diff renderer (linesEqual)

Translated from linesEqual and its helpers in src/assert/assert.go.  The
two slices arrive already rendered to strings (sliceToStrings maps the Go
formatting over the elements; the embedding keeps renderings abstract as a
function into String). -/

/-- Escaping of one character inside a Go double-quoted string, as produced
by the %q format for printable ASCII input (the renderings occurring in
this development). -/
def goQuoteChar (c : Char) : List Char :=
  if c = '"' then ['\\', '"']
  else if c = '\\' then ['\\', '\\']
  else if c = '\n' then ['\\', 'n']
  else if c = '\t' then ['\\', 't']
  else [c]

/-- Go %q formatting of a string: double quotes around the escaped body. -/
def goQuote (s : String) : String :=
  String.mk ('"' :: (s.data.flatMap goQuoteChar ++ ['"']))

/-- Go %3d formatting: decimal digits right-aligned to width 3. -/
def pad3 (n : Nat) : String :=
  String.mk (List.replicate (3 - (toString n).length) ' ') ++ toString n

/-- Translated from stringSliceEqual: length check, then element-wise
comparison. -/
def stringSliceEqual (a b : List String) : Bool :=
  if a.length ≠ b.length then false
  else (List.zip a b).all fun p => p.1 = p.2

theorem stringSliceEqual_iff (a b : List String) :
    stringSliceEqual a b = true ↔ a = b := by
  induction a generalizing b with
  | nil => cases b <;> simp [stringSliceEqual]
  | cons x xs ih =>
      cases b with
      | nil => simp [stringSliceEqual]
      | cons y ys =>
          by_cases hl : xs.length = ys.length
          · have hrec := ih ys
            simp [stringSliceEqual, hl] at hrec ⊢
            tauto
          · simp [stringSliceEqual, hl]
            intro h1 h2
            exact hl (by rw [h2])

/-- Removed line of the sequence diff, tagged with the 1-based expected
position. -/
def remLine (expS : List String) (i : Nat) : String :=
  "    --- " ++ pad3 (i + 1) ++ ": " ++ goQuote (expS.getD i "")

/-- Added line of the sequence diff, tagged with the 1-based actual
position. -/
def addLine (actS : List String) (j : Nat) : String :=
  "    +++ " ++ pad3 (j + 1) ++ ": " ++ goQuote (actS.getD j "")

/-- The rendering walk of linesEqual, fuel-indexed (structural in the fuel
so the kernel can evaluate it): starting from indices i and j it walks both
rendered slices, emitting a removed line for an unmatched expected element,
an added line for an unmatched actual element, and a removed plus added
pair for a matched pair with different renderings. -/
def diffWalkF (expS actS : List String) (expMat actMat : List Int) :
    Nat → Nat → Nat → List String
  | 0, _, _ => []
  | f + 1, i, j =>
      if i < expS.length ∨ j < actS.length then
        if actS.length ≤ j ∨ (i < expS.length ∧ expMat.getD i 0 < 0) then
          remLine expS i :: diffWalkF expS actS expMat actMat f (i + 1) j
        else if expS.length ≤ i ∨ (j < actS.length ∧ actMat.getD j 0 < 0) then
          addLine actS j :: diffWalkF expS actS expMat actMat f i (j + 1)
        else
          (if expS.getD i "" ≠ actS.getD j "" then
            [remLine expS i, addLine actS j]
          else []) ++ diffWalkF expS actS expMat actMat f (i + 1) (j + 1)
      else []

/-- The rendering walk of linesEqual from indices i and j; the fuel
(expS.length - i) + (actS.length - j) is enough for the loop to reach its
end condition. -/
def diffWalk (expS actS : List String) (expMat actMat : List Int) (i j : Nat) :
    List String :=
  diffWalkF expS actS expMat actMat ((expS.length - i) + (actS.length - j)) i j

/-- The cost model linesEqual passes to the alignment engine: substitution
is free on equal renderings and costs 2 otherwise, insertion and deletion
cost 1. -/
def lineSubCost (expS actS : List String) (expI actI : Nat) : Nat :=
  if expS.getD expI "" = actS.getD actI "" then 0 else 2

/-- Translated from linesEqual, parameterised by the alignment engine it
invokes (the engine itself is not among the sources): returns the assert
result and the emitted lines (title, difference header, then the walk),
with the source position prefix modelled as empty. -/
def linesEqualWith
    (eng : Nat → Nat → (Nat → Nat → Nat) → (Nat → Nat) → (Nat → Nat) → Nat × List Int × List Int)
    (name : String) (actS expS : List String) : Bool × List String :=
  if stringSliceEqual actS expS then (true, [])
  else
    let title := "Unexpected " ++ name ++ ": " ++
      (if expS.length = actS.length then "both " ++ toString expS.length ++ " lines"
       else "exp " ++ toString expS.length ++ ", act " ++ toString actS.length ++ " lines")
    let r := eng expS.length actS.length (lineSubCost expS actS)
      (fun _ => 1) (fun _ => 1)
    (false, title :: "  Difference(expected ---  actual +++)" ::
      diffWalk expS actS r.2.1 r.2.2 0 0)

/-- linesEqual with the alignment engine modelled from the spec words
(ties broken toward substitution). -/
def linesEqual (name : String) (actS expS : List String) : Bool × List String :=
  linesEqualWith matchFn name actS expS

/-- Fuel-indexed backtrace with the opposite tie-break: a substitution is
taken only when strictly cheaper than both alternatives, a tie going to
deletion, then insertion.  This is the tie-break the package's own example
output exhibits (removed lines grouped before added lines). -/
def traceGoFuel (sub : Nat → Nat → Nat) (del ins : Nat → Nat) : Nat → Nat → Nat → List Move
  | _, 0, 0 => []
  | f + 1, i + 1, 0 => Move.del i :: traceGoFuel sub del ins f i 0
  | f + 1, 0, j + 1 => Move.ins j :: traceGoFuel sub del ins f 0 j
  | f + 1, i + 1, j + 1 =>
      if Dfuel sub del ins f i j + sub i j < Dfuel sub del ins f i (j + 1) + del i ∧
          Dfuel sub del ins f i j + sub i j < Dfuel sub del ins f (i + 1) j + ins j then
        Move.subst i j :: traceGoFuel sub del ins f i j
      else if Dfuel sub del ins f i (j + 1) + del i ≤ Dfuel sub del ins f (i + 1) j + ins j then
        Move.del i :: traceGoFuel sub del ins f i (j + 1)
      else Move.ins j :: traceGoFuel sub del ins f (i + 1) j
  | 0, _, _ => []

/-- The alignment engine with the indel-preferring tie-break exhibited by
the package example output. -/
def matchGoFn (n m : Nat) (sub : Nat → Nat → Nat) (del ins : Nat → Nat) :
    Nat × List Int × List Int :=
  (Dfuel sub del ins (n + m) n m,
   expMatOf n (traceGoFuel sub del ins (n + m) n m),
   actMatOf m (traceGoFuel sub del ins (n + m) n m))

/-- The indel-preferring backtrace also achieves the table cost and also
forms a valid alignment, given enough fuel. -/
theorem traceGoFuel_sound (sub : Nat → Nat → Nat) (del ins : Nat → Nat) :
    ∀ f i j, i + j ≤ f →
      traceCost sub del ins (traceGoFuel sub del ins f i j) = D sub del ins i j ∧
      Aligns i j (traceGoFuel sub del ins f i j) := by
  intro f
  induction f with
  | zero =>
      intro i j h
      have hi : i = 0 := by omega
      have hj : j = 0 := by omega
      subst hi; subst hj
      exact ⟨by simp [traceGoFuel, traceCost, D], by rw [traceGoFuel]; exact Aligns.nil⟩
  | succ f ih =>
      intro i j h
      match i, j with
      | 0, 0 =>
          exact ⟨by simp [traceGoFuel, traceCost, D], by rw [traceGoFuel]; exact Aligns.nil⟩
      | i + 1, 0 =>
          have hrec := ih i 0 (by omega)
          constructor
          · rw [traceGoFuel, traceCost, hrec.1, D, Nat.add_comm]
          · rw [traceGoFuel]; exact Aligns.del hrec.2
      | 0, j + 1 =>
          have hrec := ih 0 j (by omega)
          constructor
          · rw [traceGoFuel, traceCost, hrec.1, D, Nat.add_comm]
          · rw [traceGoFuel]; exact Aligns.ins hrec.2
      | i + 1, j + 1 =>
          rw [traceGoFuel,
            Dfuel_eq sub del ins f i j (by omega),
            Dfuel_eq sub del ins f i (j + 1) (by omega),
            Dfuel_eq sub del ins f (i + 1) j (by omega)]
          split
          case isTrue hc =>
            have hrec := ih i j (by omega)
            constructor
            · rw [traceCost, hrec.1, D]; omega
            · exact Aligns.subst hrec.2
          case isFalse hc =>
            split
            case isTrue hc2 =>
              have hrec := ih i (j + 1) (by omega)
              constructor
              · rw [traceCost, hrec.1, D]; omega
              · exact Aligns.del hrec.2
            case isFalse hc2 =>
              have hrec := ih (i + 1) j (by omega)
              constructor
              · rw [traceCost, hrec.1, D]; omega
              · exact Aligns.ins hrec.2

/-- linesEqual with the indel-preferring engine. -/
def linesEqualGo (name : String) (actS expS : List String) : Bool × List String :=
  linesEqualWith matchGoFn name actS expS

/-! ## Mapping diff classifier (collectMapDiffKeys)

Keys and values are abstract types with decidable equality (modelling
reflect.DeepEqual as structural equality); a Go map is an association list
with distinct keys, and rep renders a key the way fmt does with the plus-v
verb.  The classifier receives the two key slices already sorted by their
rendering, exactly as collectAndSortMapKeys hands them over. -/

variable {K V : Type} [DecidableEq K] [DecidableEq V]

/-- Go string comparison (byte-wise lexicographic, which for the
renderings appearing here coincides with character-wise lexicographic
order), computed on the character lists so that the kernel can evaluate
it. -/
def goLess (a b : String) : Bool := decide (a.data < b.data)

theorem goLess_eq_true_iff (a b : String) : goLess a b = true ↔ a < b := by
  rw [String.lt_iff_toList_lt]
  simp only [goLess, decide_eq_true_eq]
  rfl

theorem goLess_eq_false_iff (a b : String) : goLess a b = false ↔ b ≤ a := by
  rw [← not_lt, ← goLess_eq_true_iff]
  cases goLess a b <;> simp

theorem not_goLess_of_le {a b : String} (h : b ≤ a) : ¬ goLess a b = true := by
  rw [goLess_eq_true_iff]
  exact not_lt.2 h

/-- Association list lookup, modelling MapIndex on a Go map: the value at
the key when present, none otherwise. -/
def mlookup (m : List (K × V)) (k : K) : Option V :=
  match m with
  | [] => none
  | (k2, v) :: rest => if k2 = k then some v else mlookup rest k

/-- Fuel-indexed translation of the merge-join loop of collectMapDiffKeys:
walks the two sorted key slices, classifying by the string rendering; on a
rendering collision it processes the maximal runs sharing the rendering on
both sides, deciding by exact lookup in the two maps.  Returns
(extraKeys, diffKeys, missingKeys) in the order the Go function returns
them.  In the run case, an expected key found in act whose exp value is
absent would make the Go code panic on an invalid Value; the model counts
it as changed, a branch unreachable when the key slices are the domains.
The fuel counts pointer advances; with fuel below the combined length the
loop result is cut short (unreachable from the wrapper). -/
def collectMapDiffKeysF (act exp : List (K × V)) (rep : K → String) :
    Nat → List K → List K → List K × List K × List K
  | _, eks, [] => ([], [], eks)
  | _, [], aks => (aks, [], [])
  | 0, _ :: _, _ :: _ => ([], [], [])
  | f + 1, ek :: erest, ak :: arest =>
      if goLess (rep ek) (rep ak) then
        let r := collectMapDiffKeysF act exp rep f erest (ak :: arest)
        (r.1, r.2.1, ek :: r.2.2)
      else if goLess (rep ak) (rep ek) then
        let r := collectMapDiffKeysF act exp rep f (ek :: erest) arest
        (ak :: r.1, r.2.1, r.2.2)
      else
        let expRun := (ek :: erest).takeWhile (fun k => decide (rep k = rep ak))
        let expRest := (ek :: erest).dropWhile (fun k => decide (rep k = rep ak))
        let actRun := (ak :: arest).takeWhile (fun k => decide (rep k = rep ak))
        let actRest := (ak :: arest).dropWhile (fun k => decide (rep k = rep ak))
        let msRun := expRun.filter (fun k => (mlookup act k).isNone)
        let dfRun := expRun.filter (fun k =>
          (mlookup act k).isSome && decide (mlookup exp k ≠ mlookup act k))
        let exRun := actRun.filter (fun k => (mlookup exp k).isNone)
        let r := collectMapDiffKeysF act exp rep f expRest actRest
        (exRun ++ r.1, dfRun ++ r.2.1, msRun ++ r.2.2)

/-- Translated from collectMapDiffKeys: the merge-join with enough fuel for
the whole walk. -/
def collectMapDiffKeys (act exp : List (K × V)) (rep : K → String)
    (expKs actKs : List K) : List K × List K × List K :=
  collectMapDiffKeysF act exp rep (expKs.length + actKs.length) expKs actKs

theorem collectMapDiffKeysF_nil_right (act exp : List (K × V)) (rep : K → String)
    (f : Nat) (eks : List K) :
    collectMapDiffKeysF act exp rep f eks [] = ([], [], eks) := by
  cases f <;> cases eks <;> rfl

theorem collectMapDiffKeysF_nil_left (act exp : List (K × V)) (rep : K → String)
    (f : Nat) (a : K) (aks : List K) :
    collectMapDiffKeysF act exp rep f [] (a :: aks) = (a :: aks, [], []) := by
  cases f <;> rfl

theorem collectMapDiffKeysF_zero (act exp : List (K × V)) (rep : K → String)
    (e : K) (eks : List K) (a : K) (aks : List K) :
    collectMapDiffKeysF act exp rep 0 (e :: eks) (a :: aks) = ([], [], []) := rfl

theorem collectMapDiffKeysF_cons (act exp : List (K × V)) (rep : K → String)
    (f : Nat) (ek : K) (erest : List K) (ak : K) (arest : List K) :
    collectMapDiffKeysF act exp rep (f + 1) (ek :: erest) (ak :: arest) =
      if goLess (rep ek) (rep ak) then
        ((collectMapDiffKeysF act exp rep f erest (ak :: arest)).1,
         (collectMapDiffKeysF act exp rep f erest (ak :: arest)).2.1,
         ek :: (collectMapDiffKeysF act exp rep f erest (ak :: arest)).2.2)
      else if goLess (rep ak) (rep ek) then
        (ak :: (collectMapDiffKeysF act exp rep f (ek :: erest) arest).1,
         (collectMapDiffKeysF act exp rep f (ek :: erest) arest).2.1,
         (collectMapDiffKeysF act exp rep f (ek :: erest) arest).2.2)
      else
        (((ak :: arest).takeWhile (fun k => decide (rep k = rep ak))).filter
            (fun k => (mlookup exp k).isNone) ++
          (collectMapDiffKeysF act exp rep f
            ((ek :: erest).dropWhile (fun k => decide (rep k = rep ak)))
            ((ak :: arest).dropWhile (fun k => decide (rep k = rep ak)))).1,
         ((ek :: erest).takeWhile (fun k => decide (rep k = rep ak))).filter
            (fun k => (mlookup act k).isSome && decide (mlookup exp k ≠ mlookup act k)) ++
          (collectMapDiffKeysF act exp rep f
            ((ek :: erest).dropWhile (fun k => decide (rep k = rep ak)))
            ((ak :: arest).dropWhile (fun k => decide (rep k = rep ak)))).2.1,
         ((ek :: erest).takeWhile (fun k => decide (rep k = rep ak))).filter
            (fun k => (mlookup act k).isNone) ++
          (collectMapDiffKeysF act exp rep f
            ((ek :: erest).dropWhile (fun k => decide (rep k = rep ak)))
            ((ak :: arest).dropWhile (fun k => decide (rep k = rep ak)))).2.2) := rfl

theorem filter_takeWhile_append_sublist {α : Type} (p q : α → Bool) (l r : List α)
    (h : r.Sublist (l.dropWhile q)) : ((l.takeWhile q).filter p ++ r).Sublist l := by
  have hx := List.Sublist.append (@List.filter_sublist α p (l.takeWhile q)) h
  rwa [List.takeWhile_append_dropWhile] at hx

/-- The classifier only ever copies keys out of the two key slices: each
result list is a sublist (order-preserving selection) of the slice it draws
from. -/
theorem collectMapDiffKeysF_sublist (act exp : List (K × V)) (rep : K → String) :
    ∀ f expKs actKs,
      (collectMapDiffKeysF act exp rep f expKs actKs).2.2.Sublist expKs ∧
      (collectMapDiffKeysF act exp rep f expKs actKs).2.1.Sublist expKs ∧
      (collectMapDiffKeysF act exp rep f expKs actKs).1.Sublist actKs := by
  intro f
  induction f with
  | zero =>
      intro expKs actKs
      match expKs, actKs with
      | eks, [] =>
          rw [collectMapDiffKeysF_nil_right]
          exact ⟨List.Sublist.refl _, List.nil_sublist _, List.nil_sublist _⟩
      | [], a :: aks =>
          rw [collectMapDiffKeysF_nil_left]
          exact ⟨List.nil_sublist _, List.nil_sublist _, List.Sublist.refl _⟩
      | e :: eks, a :: aks =>
          rw [collectMapDiffKeysF_zero]
          exact ⟨List.nil_sublist _, List.nil_sublist _, List.nil_sublist _⟩
  | succ f ih =>
      intro expKs actKs
      match expKs, actKs with
      | eks, [] =>
          rw [collectMapDiffKeysF_nil_right]
          exact ⟨List.Sublist.refl _, List.nil_sublist _, List.nil_sublist _⟩
      | [], a :: aks =>
          rw [collectMapDiffKeysF_nil_left]
          exact ⟨List.nil_sublist _, List.nil_sublist _, List.Sublist.refl _⟩
      | ek :: erest, ak :: arest =>
          rw [collectMapDiffKeysF_cons]
          split
          · have h := ih erest (ak :: arest)
            exact ⟨List.Sublist.cons₂ ek h.1, List.Sublist.cons ek h.2.1, h.2.2⟩
          · split
            · have h := ih (ek :: erest) arest
              exact ⟨h.1, h.2.1, List.Sublist.cons₂ ak h.2.2⟩
            · obtain ⟨h1, h2, h3⟩ := ih
                ((ek :: erest).dropWhile (fun k => decide (rep k = rep ak)))
                ((ak :: arest).dropWhile (fun k => decide (rep k = rep ak)))
              exact ⟨filter_takeWhile_append_sublist _ _ _ _ h1,
                filter_takeWhile_append_sublist _ _ _ _ h2,
                filter_takeWhile_append_sublist _ _ _ _ h3⟩

/-- Keys sorted in nondecreasing order of their rendering, as
collectAndSortMapKeys produces them. -/
def SortedKeys (rep : K → String) (l : List K) : Prop :=
  List.Pairwise (fun a b => rep a ≤ rep b) l

instance sortedKeysDec (rep : K → String) (l : List K) : Decidable (SortedKeys rep l) :=
  decidable_of_iff (List.Pairwise (fun a b => goLess (rep b) (rep a) = false) l)
    (List.Pairwise.iff (fun a b => goLess_eq_false_iff (rep b) (rep a)) )

theorem sortedKeys_head_le {rep : K → String} {x : K} {l : List K}
    (h : SortedKeys rep (x :: l)) : ∀ y ∈ x :: l, rep x ≤ rep y := by
  intro y hy
  rcases List.mem_cons.1 hy with h1 | h1
  · rw [h1]
  · exact (List.pairwise_cons.1 h).1 y h1

theorem sortedKeys_tail {rep : K → String} {x : K} {l : List K}
    (h : SortedKeys rep (x :: l)) : SortedKeys rep l :=
  (List.pairwise_cons.1 h).2

/-- In a sorted key list whose renderings are all at least s, every key
surviving the dropWhile of the keys rendering as s renders strictly above
s. -/
theorem sorted_dropWhile_gt (rep : K → String) (s : String) :
    ∀ l : List K, SortedKeys rep l → (∀ y ∈ l, s ≤ rep y) →
      ∀ k ∈ l.dropWhile (fun k => decide (rep k = s)), s < rep k := by
  intro l
  induction l with
  | nil => intro _ _ k hk; simp at hk
  | cons x xs ih =>
      intro hs hb k hk
      by_cases hx : rep x = s
      · rw [List.dropWhile_cons] at hk
        simp only [hx, decide_True, if_true] at hk
        exact ih (sortedKeys_tail hs) (fun y hy => hb y (List.mem_cons_of_mem _ hy)) k hk
      · rw [List.dropWhile_cons] at hk
        simp only [hx, decide_False, if_false] at hk
        rcases List.mem_cons.1 hk with h1 | h1
        · subst h1
          exact lt_of_le_of_ne (hb k (List.mem_cons_self _ _)) (fun he => hx he.symm)
        · exact lt_of_lt_of_le
            (lt_of_le_of_ne (hb x (List.mem_cons_self _ _)) (fun he => hx he.symm))
            ((List.pairwise_cons.1 hs).1 k h1)

/-- Soundness of a classification against the two maps: every missing key
is truly absent from act, every changed key is truly present in act with a
value differing from its exp value, and every extra key is truly absent
from exp. -/
def MapClassSound (act exp : List (K × V)) (r : List K × List K × List K) : Prop :=
  (∀ k ∈ r.2.2, mlookup act k = none) ∧
  (∀ k ∈ r.2.1, (mlookup act k).isSome ∧ mlookup exp k ≠ mlookup act k) ∧
  (∀ k ∈ r.1, mlookup exp k = none)

/-- Completeness of a classification: every expected key absent from act
is reported missing, every expected key present in act with a different
value is reported changed, and every actual key absent from exp is
reported extra. -/
def MapClassComplete (act exp : List (K × V)) (expKs actKs : List K)
    (r : List K × List K × List K) : Prop :=
  (∀ k ∈ expKs, mlookup act k = none → k ∈ r.2.2) ∧
  (∀ k ∈ expKs, (mlookup act k).isSome → mlookup exp k ≠ mlookup act k → k ∈ r.2.1) ∧
  (∀ k ∈ actKs, mlookup exp k = none → k ∈ r.1)

/-- The classifier characterisation: on sorted key slices that carry the
cross-membership facts of true map domains, the merge-join result is sound
and complete with respect to exact lookup in the two maps. -/
theorem collectMapDiffKeysF_spec (act exp : List (K × V)) (rep : K → String) :
    ∀ f expKs actKs,
      expKs.length + actKs.length ≤ f →
      SortedKeys rep expKs → SortedKeys rep actKs →
      (∀ k ∈ expKs, (mlookup act k).isSome → k ∈ actKs) →
      (∀ k ∈ actKs, (mlookup exp k).isSome → k ∈ expKs) →
      MapClassSound act exp (collectMapDiffKeysF act exp rep f expKs actKs) ∧
      MapClassComplete act exp expKs actKs
        (collectMapDiffKeysF act exp rep f expKs actKs) := by
  intro f
  induction f with
  | zero =>
      intro expKs actKs hf hs1 hs2 hinv1 hinv2
      have he : expKs = [] := List.eq_nil_of_length_eq_zero (by omega)
      have ha : actKs = [] := List.eq_nil_of_length_eq_zero (by omega)
      subst he; subst ha
      rw [collectMapDiffKeysF_nil_right]
      refine ⟨⟨?_, ?_, ?_⟩, ⟨?_, ?_, ?_⟩⟩ <;> simp
  | succ f ih =>
      intro expKs actKs hf hs1 hs2 hinv1 hinv2
      match expKs, actKs with
      | eks, [] =>
          rw [collectMapDiffKeysF_nil_right]
          have hnone : ∀ k ∈ eks, mlookup act k = none := by
            intro k hk
            cases hopt : mlookup act k with
            | none => rfl
            | some v =>
                exact absurd (hinv1 k hk (by simp [hopt])) (List.not_mem_nil k)
          refine ⟨⟨?_, ?_, ?_⟩, ⟨?_, ?_, ?_⟩⟩
          · exact hnone
          · intro k hk; simp at hk
          · intro k hk; simp at hk
          · intro k hk _; exact hk
          · intro k hk hsome _
            rw [hnone k hk] at hsome
            simp at hsome
          · intro k hk; simp at hk
      | [], a :: aks =>
          rw [collectMapDiffKeysF_nil_left]
          have hnone : ∀ k ∈ a :: aks, mlookup exp k = none := by
            intro k hk
            cases hopt : mlookup exp k with
            | none => rfl
            | some v =>
                exact absurd (hinv2 k hk (by simp [hopt])) (List.not_mem_nil k)
          refine ⟨⟨?_, ?_, ?_⟩, ⟨?_, ?_, ?_⟩⟩
          · intro k hk; simp at hk
          · intro k hk; simp at hk
          · exact hnone
          · intro k hk; simp at hk
          · intro k hk; simp at hk
          · intro k hk _; exact hk
      | ek :: erest, ak :: arest =>
          rw [collectMapDiffKeysF_cons]
          by_cases hlt : rep ek < rep ak
          · rw [if_pos ((goLess_eq_true_iff _ _).2 hlt)]
            have hek_none : mlookup act ek = none := by
              cases hopt : mlookup act ek with
              | none => rfl
              | some v =>
                  have hm := hinv1 ek (List.mem_cons_self _ _) (by simp [hopt])
                  exact absurd hlt (not_lt.2 (sortedKeys_head_le hs2 ek hm))
            obtain ⟨hS, hC⟩ := ih erest (ak :: arest) (by simp at hf ⊢; omega)
              (sortedKeys_tail hs1) hs2
              (fun k hk h => hinv1 k (List.mem_cons_of_mem _ hk) h)
              (by
                intro k hk h
                rcases List.mem_cons.1 (hinv2 k hk h) with h1 | h1
                · subst h1
                  exact absurd hlt (not_lt.2 (sortedKeys_head_le hs2 k hk))
                · exact h1)
            refine ⟨⟨?_, hS.2.1, hS.2.2⟩, ⟨?_, ?_, hC.2.2⟩⟩
            · intro k hk
              rcases List.mem_cons.1 hk with h1 | h1
              · subst h1; exact hek_none
              · exact hS.1 k h1
            · intro k hk hn
              rcases List.mem_cons.1 hk with h1 | h1
              · subst h1; exact List.mem_cons_self _ _
              · exact List.mem_cons_of_mem _ (hC.1 k h1 hn)
            · intro k hk hsome hne
              rcases List.mem_cons.1 hk with h1 | h1
              · subst h1; rw [hek_none] at hsome; simp at hsome
              · exact hC.2.1 k h1 hsome hne
          · rw [if_neg (not_goLess_of_le (not_lt.1 hlt))]
            by_cases hgt : rep ak < rep ek
            · rw [if_pos ((goLess_eq_true_iff _ _).2 hgt)]
              have hak_none : mlookup exp ak = none := by
                cases hopt : mlookup exp ak with
                | none => rfl
                | some v =>
                    have hm := hinv2 ak (List.mem_cons_self _ _) (by simp [hopt])
                    exact absurd hgt (not_lt.2 (sortedKeys_head_le hs1 ak hm))
              obtain ⟨hS, hC⟩ := ih (ek :: erest) arest (by simp at hf ⊢; omega)
                hs1 (sortedKeys_tail hs2)
                (by
                  intro k hk h
                  rcases List.mem_cons.1 (hinv1 k hk h) with h1 | h1
                  · subst h1
                    exact absurd hgt (not_lt.2 (sortedKeys_head_le hs1 k hk))
                  · exact h1)
                (fun k hk h => hinv2 k (List.mem_cons_of_mem _ hk) h)
              refine ⟨⟨hS.1, hS.2.1, ?_⟩, ⟨hC.1, hC.2.1, ?_⟩⟩
              · intro k hk
                rcases List.mem_cons.1 hk with h1 | h1
                · subst h1; exact hak_none
                · exact hS.2.2 k h1
              · intro k hk hn
                rcases List.mem_cons.1 hk with h1 | h1
                · subst h1; exact List.mem_cons_self _ _
                · exact List.mem_cons_of_mem _ (hC.2.2 k h1 hn)
            · rw [if_neg (not_goLess_of_le (not_lt.1 hgt))]
              have heq : rep ek = rep ak := le_antisymm (not_lt.1 hgt) (not_lt.1 hlt)
              have hble : ∀ y ∈ ek :: erest, rep ak ≤ rep y := by
                intro y hy
                rw [← heq]
                exact sortedKeys_head_le hs1 y hy
              have hble2 : ∀ y ∈ ak :: arest, rep ak ≤ rep y :=
                sortedKeys_head_le hs2
              have hgtE : ∀ k ∈ (ek :: erest).dropWhile
                  (fun k => decide (rep k = rep ak)), rep ak < rep k :=
                sorted_dropWhile_gt rep (rep ak) (ek :: erest) hs1 hble
              have hgtA : ∀ k ∈ (ak :: arest).dropWhile
                  (fun k => decide (rep k = rep ak)), rep ak < rep k :=
                sorted_dropWhile_gt rep (rep ak) (ak :: arest) hs2 hble2
              have hfuel : ((ek :: erest).dropWhile
                    (fun k => decide (rep k = rep ak))).length +
                  ((ak :: arest).dropWhile
                    (fun k => decide (rep k = rep ak))).length ≤ f := by
                have h1 : ((ek :: erest).dropWhile
                    (fun k => decide (rep k = rep ak))).length ≤ erest.length := by
                  rw [List.dropWhile_cons]
                  simp only [heq, decide_True, if_true]
                  exact (List.dropWhile_sublist _).length_le
                have h2 : ((ak :: arest).dropWhile
                    (fun k => decide (rep k = rep ak))).length ≤ arest.length := by
                  rw [List.dropWhile_cons]
                  simp only [decide_True, if_true]
                  exact (List.dropWhile_sublist _).length_le
                simp at hf
                omega
              obtain ⟨hS, hC⟩ := ih
                ((ek :: erest).dropWhile (fun k => decide (rep k = rep ak)))
                ((ak :: arest).dropWhile (fun k => decide (rep k = rep ak)))
                hfuel
                (List.Pairwise.sublist (List.dropWhile_sublist _) hs1)
                (List.Pairwise.sublist (List.dropWhile_sublist _) hs2)
                (by
                  intro k hk h
                  have hmem := hinv1 k ((List.dropWhile_sublist _).subset hk) h
                  rw [← List.takeWhile_append_dropWhile
                    (fun k => decide (rep k = rep ak)) (ak :: arest)] at hmem
                  rcases List.mem_append.1 hmem with h1 | h1
                  · have := List.mem_takeWhile_imp h1
                    simp at this
                    exact absurd this (ne_of_gt (hgtE k hk))
                  · exact h1)
                (by
                  intro k hk h
                  have hmem := hinv2 k ((List.dropWhile_sublist _).subset hk) h
                  rw [← List.takeWhile_append_dropWhile
                    (fun k => decide (rep k = rep ak)) (ek :: erest)] at hmem
                  rcases List.mem_append.1 hmem with h1 | h1
                  · have := List.mem_takeWhile_imp h1
                    simp at this
                    exact absurd this (ne_of_gt (hgtA k hk))
                  · exact h1)
              refine ⟨⟨?_, ?_, ?_⟩, ⟨?_, ?_, ?_⟩⟩
              · intro k hk
                rcases List.mem_append.1 hk with h1 | h1
                · have := (List.mem_filter.1 h1).2
                  exact Option.isNone_iff_eq_none.1 this
                · exact hS.1 k h1
              · intro k hk
                rcases List.mem_append.1 hk with h1 | h1
                · have := (List.mem_filter.1 h1).2
                  simp at this
                  exact ⟨by simp [this.1], this.2⟩
                · exact hS.2.1 k h1
              · intro k hk
                rcases List.mem_append.1 hk with h1 | h1
                · have := (List.mem_filter.1 h1).2
                  exact Option.isNone_iff_eq_none.1 this
                · exact hS.2.2 k h1
              · intro k hk hn
                rw [← List.takeWhile_append_dropWhile
                  (fun k => decide (rep k = rep ak)) (ek :: erest)] at hk
                rcases List.mem_append.1 hk with h1 | h1
                · exact List.mem_append.2 (Or.inl (List.mem_filter.2 ⟨h1, by simp [hn]⟩))
                · exact List.mem_append.2 (Or.inr (hC.1 k h1 hn))
              · intro k hk hsome hne
                rw [← List.takeWhile_append_dropWhile
                  (fun k => decide (rep k = rep ak)) (ek :: erest)] at hk
                rcases List.mem_append.1 hk with h1 | h1
                · refine List.mem_append.2 (Or.inl (List.mem_filter.2 ⟨h1, ?_⟩))
                  simp [hsome, hne]
                · exact List.mem_append.2 (Or.inr (hC.2.1 k h1 hsome hne))
              · intro k hk hn
                rw [← List.takeWhile_append_dropWhile
                  (fun k => decide (rep k = rep ak)) (ak :: arest)] at hk
                rcases List.mem_append.1 hk with h1 | h1
                · exact List.mem_append.2 (Or.inl (List.mem_filter.2 ⟨h1, by simp [hn]⟩))
                · exact List.mem_append.2 (Or.inr (hC.2.2 k h1 hn))

/-! ## Claim theorems for the mapping classifier -/

/-- C3: on sorted key slices that are the true domains of the two
mappings, the classifier never conflates distinct keys sharing a string
rendering: every key reported missing is truly absent from act by exact
lookup, every key reported changed is truly present in act with a value
different from its exp value, every key reported extra is truly absent
from exp, and conversely every expected key absent from act is reported
missing, every expected key with a differing value is reported changed,
and every actual key absent from exp is reported extra. -/
theorem C3_collision_safety (act exp : List (K × V)) (rep : K → String)
    (expKs actKs : List K)
    (hs1 : SortedKeys rep expKs) (hs2 : SortedKeys rep actKs)
    (hinv1 : ∀ k ∈ expKs, (mlookup act k).isSome → k ∈ actKs)
    (hinv2 : ∀ k ∈ actKs, (mlookup exp k).isSome → k ∈ expKs) :
    MapClassSound act exp (collectMapDiffKeys act exp rep expKs actKs) ∧
    MapClassComplete act exp expKs actKs
      (collectMapDiffKeys act exp rep expKs actKs) :=
  collectMapDiffKeysF_spec act exp rep (expKs.length + actKs.length) expKs actKs
    (le_refl _) hs1 hs2 hinv1 hinv2

/-- Closed instance of C3 on a collision run: keys 1 and 4 of exp and 4
and 7 of act all render as the string 1 (rendering modulo 3), yet the
classifier reports missing 1, changed 4, extra 7, by exact lookup only. -/
theorem C3_collision_safety_witness :
    (SortedKeys (fun k => toString (k % 3)) [1, 4] ∧
     SortedKeys (fun k => toString (k % 3)) [4, 7] ∧
     collectMapDiffKeys [(4, 41), (7, 70)] [(1, 10), (4, 40)]
       (fun k => toString (k % 3)) [1, 4] [4, 7] = ([7], [4], [1])) ∧
    MapClassSound [(4, 41), (7, 70)] [(1, 10), (4, 40)]
      (collectMapDiffKeys [(4, 41), (7, 70)] [(1, 10), (4, 40)]
        (fun k => toString (k % 3)) [1, 4] [4, 7]) :=
  ⟨⟨by decide, by decide, by decide⟩,
    (C3_collision_safety [(4, 41), (7, 70)] [(1, 10), (4, 40)]
      (fun k => toString (k % 3)) [1, 4] [4, 7]
      (by decide) (by decide) (by decide) (by decide)).1⟩

/-- C5: under the same domain conditions plus distinctness of the key
slices, each key appears in at most one of the three result lists and
never twice in one list, and a key present in both mappings with equal
values appears in none of them. -/
theorem C5_partition (act exp : List (K × V)) (rep : K → String)
    (expKs actKs : List K)
    (hs1 : SortedKeys rep expKs) (hs2 : SortedKeys rep actKs)
    (hinv1 : ∀ k ∈ expKs, (mlookup act k).isSome → k ∈ actKs)
    (hinv2 : ∀ k ∈ actKs, (mlookup exp k).isSome → k ∈ expKs)
    (hnd1 : expKs.Nodup) (hnd2 : actKs.Nodup)
    (hdom1 : ∀ k ∈ expKs, (mlookup exp k).isSome) :
    (collectMapDiffKeys act exp rep expKs actKs).2.2.Nodup ∧
    (collectMapDiffKeys act exp rep expKs actKs).2.1.Nodup ∧
    (collectMapDiffKeys act exp rep expKs actKs).1.Nodup ∧
    (∀ k, ¬(k ∈ (collectMapDiffKeys act exp rep expKs actKs).2.2 ∧
            k ∈ (collectMapDiffKeys act exp rep expKs actKs).2.1)) ∧
    (∀ k, ¬(k ∈ (collectMapDiffKeys act exp rep expKs actKs).2.2 ∧
            k ∈ (collectMapDiffKeys act exp rep expKs actKs).1)) ∧
    (∀ k, ¬(k ∈ (collectMapDiffKeys act exp rep expKs actKs).2.1 ∧
            k ∈ (collectMapDiffKeys act exp rep expKs actKs).1)) ∧
    (∀ k ∈ expKs, ∀ v, mlookup exp k = some v → mlookup act k = some v →
      k ∉ (collectMapDiffKeys act exp rep expKs actKs).2.2 ∧
      k ∉ (collectMapDiffKeys act exp rep expKs actKs).2.1 ∧
      k ∉ (collectMapDiffKeys act exp rep expKs actKs).1) := by
  obtain ⟨hsub1, hsub2, hsub3⟩ :=
    collectMapDiffKeysF_sublist act exp rep (expKs.length + actKs.length) expKs actKs
  obtain ⟨hS, hC⟩ := collectMapDiffKeysF_spec act exp rep
    (expKs.length + actKs.length) expKs actKs (le_refl _) hs1 hs2 hinv1 hinv2
  refine ⟨hnd1.sublist hsub1, hnd1.sublist hsub2, hnd2.sublist hsub3, ?_, ?_, ?_, ?_⟩
  · rintro k ⟨h1, h2⟩
    have hn := hS.1 k h1
    have hsome := (hS.2.1 k h2).1
    rw [hn] at hsome
    simp at hsome
  · rintro k ⟨h1, h2⟩
    have hnone := hS.2.2 k h2
    have hsome := hdom1 k (hsub1.subset h1)
    rw [hnone] at hsome
    simp at hsome
  · rintro k ⟨h1, h2⟩
    have hnone := hS.2.2 k h2
    have hsome := hdom1 k (hsub2.subset h1)
    rw [hnone] at hsome
    simp at hsome
  · intro k hk v hexp hact
    refine ⟨?_, ?_, ?_⟩
    · intro hmem
      have hn := hS.1 k hmem
      rw [hact] at hn
      cases hn
    · intro hmem
      have := (hS.2.1 k hmem).2
      rw [hexp, hact] at this
      exact this rfl
    · intro hmem
      have hn := hS.2.2 k hmem
      rw [hexp] at hn
      cases hn

/-- Closed instance of C5: the collision scenario of the C3 witness, with
key 2 present in both maps with equal value and so reported nowhere. -/
theorem C5_partition_witness :
    ((2 : Nat) ∈ [1, 2, 4] ∧
     mlookup [(1, 10), (2, 20), (4, 40)] 2 = some 20 ∧
     mlookup [(2, 20), (4, 41), (7, 70)] 2 = some 20) ∧
    (2 ∉ (collectMapDiffKeys [(2, 20), (4, 41), (7, 70)] [(1, 10), (2, 20), (4, 40)]
        (fun k => toString (k % 3)) [1, 4, 2] [4, 7, 2]).2.2 ∧
     2 ∉ (collectMapDiffKeys [(2, 20), (4, 41), (7, 70)] [(1, 10), (2, 20), (4, 40)]
        (fun k => toString (k % 3)) [1, 4, 2] [4, 7, 2]).2.1 ∧
     2 ∉ (collectMapDiffKeys [(2, 20), (4, 41), (7, 70)] [(1, 10), (2, 20), (4, 40)]
        (fun k => toString (k % 3)) [1, 4, 2] [4, 7, 2]).1) :=
  ⟨⟨by decide, by decide, by decide⟩,
    ((C5_partition [(2, 20), (4, 41), (7, 70)] [(1, 10), (2, 20), (4, 40)]
        (fun k => toString (k % 3)) [1, 4, 2] [4, 7, 2]
        (by decide) (by decide) (by decide) (by decide) (by decide) (by decide)
        (by decide)).2.2.2.2.2.2 2 (by decide) 20 (by decide) (by decide))⟩

/-! ## Mapping diff renderer (mapDiff, mapValueToStr) -/

/-- Translated from mapValueToStr: the rendering of a map value in a diff
line; empty when the value renders as the empty struct marker (the map is
used as a set), otherwise a colon and the quoted rendering.  Applied to
MapIndex output; on an absent key Go would panic on an invalid Value, the
model returns the empty string (unreachable from mapDiff). -/
def mapValueToStr (vrep : V → String) (ov : Option V) : String :=
  match ov with
  | none => ""
  | some v => if vrep v = "{}" then "" else ": " ++ goQuote (vrep v)

/-- Removed line of the mapping diff: quoted key plus its exp value. -/
def mapRemLine (krep : K → String) (vrep : V → String) (exp : List (K × V)) (k : K) :
    String :=
  "    --- " ++ goQuote (krep k) ++ mapValueToStr vrep (mlookup exp k)

/-- Added line of the mapping diff: quoted key plus its act value. -/
def mapAddLine (krep : K → String) (vrep : V → String) (act : List (K × V)) (k : K) :
    String :=
  "    +++ " ++ goQuote (krep k) ++ mapValueToStr vrep (mlookup act k)

/-- Translated from mapDiff: classifies the two mappings over their sorted
key slices and renders the report: title, difference header, then one loop
of removed lines over the missing keys, one loop of removed plus added
pairs over the changed keys, and one loop of added lines over the extra
keys, each loop guarded by a non-emptiness test as in the source. -/
def mapDiff (name : String) (act exp : List (K × V)) (krep : K → String)
    (vrep : V → String) (expKs actKs : List K) : List String :=
  let r := collectMapDiffKeys act exp krep expKs actKs
  let title := "Unexpected " ++ name ++ ": " ++
    (if expKs.length = actKs.length then
      "both " ++ toString expKs.length ++ " entries"
     else "exp " ++ toString expKs.length ++ ", act " ++ toString actKs.length ++
      " entries")
  let l1 := if r.2.2.length > 0 then
      r.2.2.foldl (fun acc k => acc ++ [mapRemLine krep vrep exp k]) [] else []
  let l2 := if r.2.1.length > 0 then
      r.2.1.foldl (fun acc k =>
        acc ++ [mapRemLine krep vrep exp k, mapAddLine krep vrep act k]) [] else []
  let l3 := if r.1.length > 0 then
      r.1.foldl (fun acc k => acc ++ [mapAddLine krep vrep act k]) [] else []
  title :: "  Difference(expected ---  actual +++)" :: (l1 ++ l2 ++ l3)

theorem foldl_append_singleton {α β : Type} (f : α → β) :
    ∀ (l : List α) (acc : List β),
      l.foldl (fun acc k => acc ++ [f k]) acc = acc ++ l.map f := by
  intro l
  induction l with
  | nil => intro acc; simp
  | cons x xs ih => intro acc; simp [ih]

theorem foldl_append_pair {α β : Type} (f g : α → β) :
    ∀ (l : List α) (acc : List β),
      l.foldl (fun acc k => acc ++ [f k, g k]) acc =
        acc ++ l.flatMap (fun k => [f k, g k]) := by
  intro l
  induction l with
  | nil => intro acc; simp
  | cons x xs ih => intro acc; simp [ih]

/-- A value line fragment is empty exactly when the value renders as the
empty struct marker. -/
theorem mapValueToStr_eq_empty_iff (vrep : V → String) (v : V) :
    mapValueToStr vrep (some v) = "" ↔ vrep v = "{}" := by
  unfold mapValueToStr
  by_cases h : vrep v = "{}"
  · simp [h]
  · simp only [h, if_false]
    constructor
    · intro he
      have hd := congrArg String.data he
      simp [String.data_append] at hd
    · intro hf
      exact hf.elim

/-- C6: for every classified mapping diff, the renderer emits, after the
title and the difference header, exactly one removed line per missing key,
then a removed line immediately followed by an added line per changed key,
then one added line per extra key, in that order; and a value is omitted
from its line exactly when its rendering is the empty struct marker. -/
theorem C6_map_render_order (name : String) (act exp : List (K × V))
    (krep : K → String) (vrep : V → String) (expKs actKs : List K) :
    mapDiff name act exp krep vrep expKs actKs =
      ("Unexpected " ++ name ++ ": " ++
        (if expKs.length = actKs.length then
          "both " ++ toString expKs.length ++ " entries"
         else "exp " ++ toString expKs.length ++ ", act " ++
          toString actKs.length ++ " entries")) ::
      "  Difference(expected ---  actual +++)" ::
      ((collectMapDiffKeys act exp krep expKs actKs).2.2.map
          (mapRemLine krep vrep exp) ++
        (collectMapDiffKeys act exp krep expKs actKs).2.1.flatMap
          (fun k => [mapRemLine krep vrep exp k, mapAddLine krep vrep act k]) ++
        (collectMapDiffKeys act exp krep expKs actKs).1.map
          (mapAddLine krep vrep act)) ∧
    (∀ v : V, mapValueToStr vrep (some v) = "" ↔ vrep v = "{}") := by
  refine ⟨?_, fun v => mapValueToStr_eq_empty_iff vrep v⟩
  have h1 : ∀ (l : List K) (f : K → String),
      (if l.length > 0 then l.foldl (fun acc k => acc ++ [f k]) [] else []) =
        l.map f := by
    intro l f
    cases l with
    | nil => simp
    | cons x xs =>
        rw [if_pos (by simp), foldl_append_singleton]
        simp
  have h2 : ∀ (l : List K) (f g : K → String),
      (if l.length > 0 then l.foldl (fun acc k => acc ++ [f k, g k]) [] else []) =
        l.flatMap (fun k => [f k, g k]) := by
    intro l f g
    cases l with
    | nil => simp
    | cons x xs =>
        rw [if_pos (by simp), foldl_append_pair]
        simp
  simp only [mapDiff, h1, h2]

/-! ## Key collection and sorting (collectAndSortMapKeys)

collectAndSortMapKeys extracts the map keys (Go map iteration order is
unspecified; the extraction order is taken as an input here), renders each
with the plus-v verb, and sorts keys and renderings together with
sort.Sort.  sort.Sort is the Go standard library quicksort; for slices of
at most 12 elements (every input appearing in this development) it runs
one shell sort pass with gap 6 followed by an insertion sort, modelled
below.  Go map key slices of at most 12 elements keep the claims honest:
the shell pass pairs index i with i - 6, and for length at most 12 those
pairs are disjoint, so the pass is a pairwise conditional swap of the
first half against the second half.  The insertion sort swaps an element
down while strictly less than its predecessor, so equal elements are never
swapped: it is the classic stable insertion sort, and its result is the
unique stable sorted permutation, which the functional insertion sort
below also computes. -/

/-- One gap-6 shell pass step: walks the first six elements paired with
the elements six positions later, swapping a pair when the later element
renders strictly below the earlier one (Less(i, i-6) in the source);
returns the updated first-half and second-half lists. -/
def shellAux (q : K → K → Bool) : List K → List K → List K × List K
  | a, [] => (a, [])
  | [], _ => ([], [])
  | x :: xs, y :: ys =>
      let r := shellAux q xs ys
      if q x y then (y :: r.1, x :: r.2) else (x :: r.1, y :: r.2)

/-- Modelled from the Go standard library sort.Sort (2015 era): the gap-6
shell sort pass it performs on slices of at most 12 elements before the
insertion sort; for such lengths each index meets its partner exactly
once, a pairwise conditional swap of the first six elements against the
rest. -/
def shellPass (rep : K → String) (l : List K) : List K :=
  (shellAux (fun x y => goLess (rep y) (rep x)) (l.take 6) (l.drop 6)).1 ++
    (shellAux (fun x y => goLess (rep y) (rep x)) (l.take 6) (l.drop 6)).2

/-- Modelled from the Go standard library sort.Sort (2015 era) for slices
of at most 12 elements: the shell pass, then a stable insertion sort in
nondecreasing order of the rendering (the index-and-swap insertion sort of
the library swaps only strictly descending adjacent pairs, so it is
stable, and its result is the unique stable sorted permutation, which the
functional insertion sort below also computes). -/
def goSortKeys (rep : K → String) (l : List K) : List K :=
  List.insertionSort (fun x y => goLess (rep y) (rep x) = false) (shellPass rep l)

/-- Translated from collectAndSortMapKeys: sorts the extracted keys by
their rendering using sort.Sort (modelled by goSortKeys for extraction
orders of at most 12 keys). -/
def collectAndSortMapKeys (rep : K → String) (keys0 : List K) : List K :=
  goSortKeys rep keys0

/-- The sort the spec words describe: a stable ascending sort by the
rendering, keys with identical renderings keeping their extraction
order. -/
def specStableSortKeys (rep : K → String) (keys0 : List K) : List K :=
  List.insertionSort (fun x y => goLess (rep y) (rep x) = false) keys0

theorem shellAux_perm (q : K → K → Bool) :
    ∀ (b a : List K), b.length ≤ a.length →
      List.Perm ((shellAux q a b).1 ++ (shellAux q a b).2) (a ++ b) := by
  intro b
  induction b with
  | nil =>
      intro a h
      cases a <;> simp [shellAux]
  | cons y ys ih =>
      intro a h
      match a with
      | [] => simp at h
      | x :: xs =>
          have hlen : ys.length ≤ xs.length := by
            simp only [List.length_cons] at h
            omega
          have hih := ih xs hlen
          rw [shellAux]
          by_cases hq : q x y
          · simp only [hq, if_true, List.cons_append]
            exact (List.Perm.cons y List.perm_middle).trans
              ((List.Perm.cons y (List.Perm.cons x hih)).trans
                ((List.Perm.swap x y _).trans
                  (List.Perm.cons x List.perm_middle.symm)))
          · simp only [hq, if_false, List.cons_append]
            exact (List.Perm.cons x List.perm_middle).trans
              ((List.Perm.cons x (List.Perm.cons y hih)).trans
                (List.Perm.cons x List.perm_middle.symm))

theorem shellPass_perm (rep : K → String) (l : List K) (h : l.length ≤ 12) :
    List.Perm (shellPass rep l) l := by
  unfold shellPass
  have hlen : (l.drop 6).length ≤ (l.take 6).length := by
    rw [List.length_take, List.length_drop]
    omega
  have hp := shellAux_perm (fun x y => goLess (rep y) (rep x)) (l.drop 6) (l.take 6) hlen
  rw [List.take_append_drop] at hp
  exact hp

theorem goSortKeys_sorted (rep : K → String) (l : List K) :
    SortedKeys rep (goSortKeys rep l) := by
  haveI hT : IsTotal K (fun x y => goLess (rep y) (rep x) = false) := ⟨by
    intro a b
    rcases le_total (rep a) (rep b) with h | h
    · exact Or.inl ((goLess_eq_false_iff _ _).2 h)
    · exact Or.inr ((goLess_eq_false_iff _ _).2 h)⟩
  haveI hTr : IsTrans K (fun x y => goLess (rep y) (rep x) = false) := ⟨by
    intro a b c hab hbc
    exact (goLess_eq_false_iff _ _).2
      (le_trans ((goLess_eq_false_iff _ _).1 hab) ((goLess_eq_false_iff _ _).1 hbc))⟩
  have hs := List.sorted_insertionSort (fun x y => goLess (rep y) (rep x) = false)
    (shellPass rep l)
  exact hs.imp (fun h => (goLess_eq_false_iff _ _).1 h)

/-! ## Step-counted versions of the two loops

These versions return none when the step budget runs out mid-loop; that
they return some result within a budget of one step per remaining index is
the termination argument for the rendering walk and the merge-join. -/

/-- The rendering walk with an explicit step budget. -/
def diffWalkOpt (expS actS : List String) (expMat actMat : List Int) :
    Nat → Nat → Nat → Option (List String)
  | 0, i, j => if i < expS.length ∨ j < actS.length then none else some []
  | f + 1, i, j =>
      if i < expS.length ∨ j < actS.length then
        if actS.length ≤ j ∨ (i < expS.length ∧ expMat.getD i 0 < 0) then
          (diffWalkOpt expS actS expMat actMat f (i + 1) j).map
            (fun r => remLine expS i :: r)
        else if expS.length ≤ i ∨ (j < actS.length ∧ actMat.getD j 0 < 0) then
          (diffWalkOpt expS actS expMat actMat f i (j + 1)).map
            (fun r => addLine actS j :: r)
        else
          (diffWalkOpt expS actS expMat actMat f (i + 1) (j + 1)).map
            (fun r =>
              (if expS.getD i "" ≠ actS.getD j "" then
                [remLine expS i, addLine actS j]
              else []) ++ r)
      else some []

/-- Within a budget of one step per remaining index, the walk reaches its
end condition and computes the rendered lines. -/
theorem diffWalkOpt_eq (expS actS : List String) (expMat actMat : List Int) :
    ∀ f i j, (expS.length - i) + (actS.length - j) ≤ f →
      diffWalkOpt expS actS expMat actMat f i j =
        some (diffWalkF expS actS expMat actMat f i j) := by
  intro f
  induction f with
  | zero =>
      intro i j h
      have hc : ¬(i < expS.length ∨ j < actS.length) := by omega
      simp only [diffWalkOpt, diffWalkF, hc, if_false]
  | succ f ih =>
      intro i j h
      rw [diffWalkOpt, diffWalkF]
      by_cases hc : i < expS.length ∨ j < actS.length
      · rw [if_pos hc, if_pos hc]
        by_cases h1 : actS.length ≤ j ∨ (i < expS.length ∧ expMat.getD i 0 < 0)
        · rw [if_pos h1, if_pos h1,
            ih (i + 1) j (by rcases h1 with h1 | ⟨h1, _⟩ <;> rcases hc with hc | hc <;> omega)]
          rfl
        · rw [if_neg h1, if_neg h1]
          by_cases h2 : expS.length ≤ i ∨ (j < actS.length ∧ actMat.getD j 0 < 0)
          · rw [if_pos h2, if_pos h2,
              ih i (j + 1) (by rcases h2 with h2 | ⟨h2, _⟩ <;> rcases hc with hc | hc <;> omega)]
            rfl
          · have hj : j < actS.length := by
              push_neg at h1
              exact h1.1
            have hi : i < expS.length := by
              push_neg at h2
              exact h2.1
            rw [if_neg h2, if_neg h2, ih (i + 1) (j + 1) (by omega)]
            rfl
      · rw [if_neg hc, if_neg hc]

/-- The merge-join with an explicit step budget. -/
def collectMapDiffKeysOpt (act exp : List (K × V)) (rep : K → String) :
    Nat → List K → List K → Option (List K × List K × List K)
  | _, eks, [] => some ([], [], eks)
  | _, [], aks => some (aks, [], [])
  | 0, _ :: _, _ :: _ => none
  | f + 1, ek :: erest, ak :: arest =>
      if goLess (rep ek) (rep ak) then
        (collectMapDiffKeysOpt act exp rep f erest (ak :: arest)).map
          (fun r => (r.1, r.2.1, ek :: r.2.2))
      else if goLess (rep ak) (rep ek) then
        (collectMapDiffKeysOpt act exp rep f (ek :: erest) arest).map
          (fun r => (ak :: r.1, r.2.1, r.2.2))
      else
        (collectMapDiffKeysOpt act exp rep f
            ((ek :: erest).dropWhile (fun k => decide (rep k = rep ak)))
            ((ak :: arest).dropWhile (fun k => decide (rep k = rep ak)))).map
          (fun r =>
            (((ak :: arest).takeWhile (fun k => decide (rep k = rep ak))).filter
                (fun k => (mlookup exp k).isNone) ++ r.1,
             ((ek :: erest).takeWhile (fun k => decide (rep k = rep ak))).filter
                (fun k => (mlookup act k).isSome &&
                  decide (mlookup exp k ≠ mlookup act k)) ++ r.2.1,
             ((ek :: erest).takeWhile (fun k => decide (rep k = rep ak))).filter
                (fun k => (mlookup act k).isNone) ++ r.2.2))

theorem collectMapDiffKeysOpt_nil_right (act exp : List (K × V)) (rep : K → String)
    (f : Nat) (eks : List K) :
    collectMapDiffKeysOpt act exp rep f eks [] = some ([], [], eks) := by
  cases f <;> cases eks <;> rfl

theorem collectMapDiffKeysOpt_nil_left (act exp : List (K × V)) (rep : K → String)
    (f : Nat) (a : K) (aks : List K) :
    collectMapDiffKeysOpt act exp rep f [] (a :: aks) = some (a :: aks, [], []) := by
  cases f <;> rfl

theorem collectMapDiffKeysOpt_cons (act exp : List (K × V)) (rep : K → String)
    (f : Nat) (ek : K) (erest : List K) (ak : K) (arest : List K) :
    collectMapDiffKeysOpt act exp rep (f + 1) (ek :: erest) (ak :: arest) =
      if goLess (rep ek) (rep ak) then
        (collectMapDiffKeysOpt act exp rep f erest (ak :: arest)).map
          (fun r => (r.1, r.2.1, ek :: r.2.2))
      else if goLess (rep ak) (rep ek) then
        (collectMapDiffKeysOpt act exp rep f (ek :: erest) arest).map
          (fun r => (ak :: r.1, r.2.1, r.2.2))
      else
        (collectMapDiffKeysOpt act exp rep f
            ((ek :: erest).dropWhile (fun k => decide (rep k = rep ak)))
            ((ak :: arest).dropWhile (fun k => decide (rep k = rep ak)))).map
          (fun r =>
            (((ak :: arest).takeWhile (fun k => decide (rep k = rep ak))).filter
                (fun k => (mlookup exp k).isNone) ++ r.1,
             ((ek :: erest).takeWhile (fun k => decide (rep k = rep ak))).filter
                (fun k => (mlookup act k).isSome &&
                  decide (mlookup exp k ≠ mlookup act k)) ++ r.2.1,
             ((ek :: erest).takeWhile (fun k => decide (rep k = rep ak))).filter
                (fun k => (mlookup act k).isNone) ++ r.2.2)) := rfl

/-- Within a budget of one step per remaining key, the merge-join reaches
its end condition and computes the classification: each turn of the loop
advances at least one of the two pointers. -/
theorem collectMapDiffKeysOpt_eq (act exp : List (K × V)) (rep : K → String) :
    ∀ f expKs actKs, expKs.length + actKs.length ≤ f →
      collectMapDiffKeysOpt act exp rep f expKs actKs =
        some (collectMapDiffKeysF act exp rep f expKs actKs) := by
  intro f
  induction f with
  | zero =>
      intro expKs actKs h
      have he : expKs = [] := List.eq_nil_of_length_eq_zero (by omega)
      have ha : actKs = [] := List.eq_nil_of_length_eq_zero (by omega)
      subst he; subst ha
      rw [collectMapDiffKeysOpt_nil_right, collectMapDiffKeysF_nil_right]
  | succ f ih =>
      intro expKs actKs h
      match expKs, actKs with
      | eks, [] =>
          rw [collectMapDiffKeysOpt_nil_right, collectMapDiffKeysF_nil_right]
      | [], a :: aks =>
          rw [collectMapDiffKeysOpt_nil_left, collectMapDiffKeysF_nil_left]
      | ek :: erest, ak :: arest =>
          rw [collectMapDiffKeysOpt_cons, collectMapDiffKeysF_cons]
          simp only [List.length_cons] at h
          by_cases h1 : goLess (rep ek) (rep ak) = true
          · rw [if_pos h1, if_pos h1, ih erest (ak :: arest) (by simp; omega)]
            rfl
          · rw [if_neg h1, if_neg h1]
            by_cases h2 : goLess (rep ak) (rep ek) = true
            · rw [if_pos h2, if_pos h2, ih (ek :: erest) arest (by simp; omega)]
              rfl
            · have heq : rep ek = rep ak :=
                le_antisymm
                  ((goLess_eq_false_iff _ _).1 (Bool.not_eq_true _ ▸ h2 : _))
                  ((goLess_eq_false_iff _ _).1 (Bool.not_eq_true _ ▸ h1 : _))
              have hfe : ((ek :: erest).dropWhile
                  (fun k => decide (rep k = rep ak))).length ≤ erest.length := by
                rw [List.dropWhile_cons]
                simp only [heq, decide_True, if_true]
                exact (List.dropWhile_sublist _).length_le
              have hfa : ((ak :: arest).dropWhile
                  (fun k => decide (rep k = rep ak))).length ≤ arest.length := by
                rw [List.dropWhile_cons]
                simp only [decide_True, if_true]
                exact (List.dropWhile_sublist _).length_le
              rw [if_neg h2, if_neg h2,
                ih ((ek :: erest).dropWhile (fun k => decide (rep k = rep ak)))
                  ((ak :: arest).dropWhile (fun k => decide (rep k = rep ak)))
                  (by omega)]
              rfl

/-- C9: every comparison terminates for all finite inputs.  The rendering
walk of linesEqual completes within one step per line of either slice, and
the merge-join of collectMapDiffKeys completes within one step per key of
either mapping: with those step budgets the instrumented loops return the
very result the total models compute, so each loop iteration advances at
least one index and the end conditions are reached. -/
theorem C9_loops_terminate (expS actS : List String) (expMat actMat : List Int)
    (act exp : List (K × V)) (rep : K → String) (expKs actKs : List K) :
    diffWalkOpt expS actS expMat actMat (expS.length + actS.length) 0 0 =
      some (diffWalk expS actS expMat actMat 0 0) ∧
    collectMapDiffKeysOpt act exp rep (expKs.length + actKs.length) expKs actKs =
      some (collectMapDiffKeys act exp rep expKs actKs) := by
  constructor
  · exact diffWalkOpt_eq expS actS expMat actMat
      (expS.length + actS.length) 0 0 (by omega)
  · exact collectMapDiffKeysOpt_eq act exp rep
      (expKs.length + actKs.length) expKs actKs (le_refl _)

/-! ## StringEqual scalar path

StringEqual first dispatches two slices to linesEqual; otherwise it
renders both values with the plus-v verb and compares the renderings.  On
a mismatch containing a newline in either rendering, the renderings are
split on newlines (strings.Split) and compared as line sequences by
linesEqual; short single-line mismatches get the single message form. -/

/-- strings.Split on the newline separator, over the character list. -/
def splitChars : List Char → List (List Char)
  | [] => [[]]
  | c :: cs =>
      if c = '\n' then [] :: splitChars cs
      else
        match splitChars cs with
        | [] => [[c]]
        | l :: ls => (c :: l) :: ls

/-- Inverse of splitChars: interleaves the newline back. -/
def joinChars : List (List Char) → List Char
  | [] => []
  | [l] => l
  | l :: ls => l ++ '\n' :: joinChars ls

theorem splitChars_ne_nil : ∀ cs : List Char, splitChars cs ≠ [] := by
  intro cs
  cases cs with
  | nil => simp [splitChars]
  | cons c cs =>
      rw [splitChars]
      by_cases hc : c = '\n'
      · simp [hc]
      · simp only [hc, if_false]
        cases splitChars cs <;> simp

theorem joinChars_splitChars : ∀ cs : List Char, joinChars (splitChars cs) = cs := by
  intro cs
  induction cs with
  | nil => rfl
  | cons c cs ih =>
      rw [splitChars]
      by_cases hc : c = '\n'
      · rw [if_pos hc]
        cases hsp : splitChars cs with
        | nil => exact absurd hsp (splitChars_ne_nil cs)
        | cons r rs =>
            rw [joinChars]
            · rw [← hsp, ih, hc]
              simp
            · simp
      · rw [if_neg hc]
        cases hsp : splitChars cs with
        | nil => exact absurd hsp (splitChars_ne_nil cs)
        | cons r rs =>
            cases rs with
            | nil =>
                rw [joinChars]
                rw [hsp] at ih
                rw [joinChars] at ih
                rw [ih]
            | cons r2 rs2 =>
                rw [joinChars]
                · rw [hsp] at ih
                  rw [joinChars] at ih
                  · have hstep : (c :: r) ++ '\n' :: joinChars (r2 :: rs2) =
                        c :: (r ++ '\n' :: joinChars (r2 :: rs2)) := by simp
                    rw [hstep, ih]
                  · simp
                · simp

/-- Translated from the strings.Split call of StringEqual: split a
rendering into its lines. -/
def splitLines (s : String) : List String :=
  (splitChars s.data).map String.mk

theorem splitLines_injective {s t : String}
    (h : splitLines s = splitLines t) : s = t := by
  have hmk : ∀ a b : List Char, String.mk a = String.mk b → a = b := by
    intro a b hab
    injection hab
  have hchars : splitChars s.data = splitChars t.data := by
    have := h
    unfold splitLines at this
    exact List.map_injective_iff.2 (fun a b hab => hmk a b hab) this
  have hdata : s.data = t.data := by
    rw [← joinChars_splitChars s.data, ← joinChars_splitChars t.data, hchars]
  cases s
  cases t
  simp only at hdata
  rw [hdata]

/-- strings.ContainsRune on the newline character. -/
def containsNL (s : String) : Bool := s.data.contains '\n'

/-- The single-message failure form shared by the assert functions, with
the long-message line break at 80 characters. -/
def expectedGotMsg (name expMsg actMsg : String) : String :=
  let msg := name ++ " is expected to be " ++ expMsg ++ ", but got " ++ actMsg
  if msg.length ≥ 80 then
    name ++ " is expected to be\n  " ++ expMsg ++ "\nbut got\n  " ++ actMsg
  else msg

/-- Translated from the scalar path of StringEqual (the slice path was
dispatched to linesEqual beforehand), applied to the two plus-v
renderings: equal renderings succeed; otherwise a rendering containing a
newline routes both renderings, split into lines, to linesEqual, and the
remaining case produces the single message (the source quotes the values
with fmt.Sprint there, modelled by the same renderings). -/
def StringEqualScalar (name : String) (actS expS : String) : Bool × List String :=
  if actS = expS then (true, [])
  else if containsNL actS || containsNL expS then
    linesEqual name (splitLines actS) (splitLines expS)
  else
    (false, [expectedGotMsg name (goQuote expS) (goQuote actS)])

/-! ## Equality entry points (Equal) -/

/-- reflect.DeepEqual on two Go maps: every entry of each side is present
in the other with a deeply equal value (order-independent). -/
def mapsDeepEqual (act exp : List (K × V)) : Bool :=
  exp.all (fun p => decide (mlookup act p.1 = some p.2)) &&
    act.all (fun p => decide (mlookup exp p.1 = some p.2))

/-- Translated from Equal applied to two mappings: DeepEqual
short-circuits to success; on mismatch sameTypeDiff dispatches to mapDiff
over the collected and sorted key slices. -/
def EqualMap (name : String) (act exp : List (K × V)) (krep : K → String)
    (vrep : V → String) (expKs0 actKs0 : List K) : Bool × List String :=
  if mapsDeepEqual act exp then (true, [])
  else
    (false, mapDiff name act exp krep vrep
      (collectAndSortMapKeys krep expKs0) (collectAndSortMapKeys krep actKs0))

/-- Rendering of a whole slice with the plus-v verb: bracketed,
space-separated elements. -/
def goSliceRep {E : Type} (erep : E → String) (l : List E) : String :=
  "[" ++ String.intercalate " " (l.map erep) ++ "]"

/-- Translated from Equal applied to two slices: DeepEqual short-circuits
to success; on mismatch the slice case of sameTypeDiff falls through to
the single message over the whole-slice renderings. -/
def EqualSlice {E : Type} [DecidableEq E] (name : String) (erep : E → String)
    (act exp : List E) : Bool × List String :=
  if exp = act then (true, [])
  else
    (false,
      [expectedGotMsg name (goQuote (goSliceRep erep exp)) (goQuote (goSliceRep erep act))])

/-- In a map with distinct keys, looking up the key of an entry gives that
entry. -/
theorem mlookup_self (m : List (K × V)) (hnd : (m.map Prod.fst).Nodup) :
    ∀ p ∈ m, mlookup m p.1 = some p.2 := by
  induction m with
  | nil => intro p hp; simp at hp
  | cons q rest ih =>
      intro p hp
      obtain ⟨qk, qv⟩ := q
      rw [List.map_cons] at hnd
      rcases List.mem_cons.1 hp with h | h
      · subst h
        simp [mlookup]
      · have hne : qk ≠ p.1 := by
          intro he
          apply (List.nodup_cons.1 hnd).1
          rw [he]
          exact List.mem_map.2 ⟨p, h, rfl⟩
        rw [mlookup, if_neg hne]
        exact ih (List.nodup_cons.1 hnd).2 p h

theorem mapsDeepEqual_self (m : List (K × V)) (hnd : (m.map Prod.fst).Nodup) :
    mapsDeepEqual m m = true := by
  unfold mapsDeepEqual
  rw [Bool.and_eq_true]
  constructor <;>
  · rw [List.all_eq_true]
    intro p hp
    simp [mlookup_self m hnd p hp]

/-- The classifier on one mapping against itself reports nothing, as long
as the key slice is part of the map domain. -/
theorem collectMapDiffKeysF_self (m : List (K × V)) (rep : K → String) :
    ∀ f ks, 2 * ks.length ≤ f → (∀ k ∈ ks, (mlookup m k).isSome) →
      collectMapDiffKeysF m m rep f ks ks = ([], [], []) := by
  intro f
  induction f with
  | zero =>
      intro ks hf hdom
      have h0 : ks = [] := List.eq_nil_of_length_eq_zero (by omega)
      subst h0
      rw [collectMapDiffKeysF_nil_right]
  | succ f ih =>
      intro ks hf hdom
      match ks with
      | [] => rw [collectMapDiffKeysF_nil_right]
      | k :: rest =>
          rw [collectMapDiffKeysF_cons]
          have hnl : goLess (rep k) (rep k) = false :=
            (goLess_eq_false_iff _ _).2 (le_refl _)
          rw [if_neg (by rw [hnl]; exact Bool.false_ne_true),
            if_neg (by rw [hnl]; exact Bool.false_ne_true)]
          have hms : ((k :: rest).takeWhile (fun k2 => decide (rep k2 = rep k))).filter
              (fun k2 => (mlookup m k2).isNone) = [] := by
            rw [List.filter_eq_nil_iff]
            intro a ha
            have hdm := hdom a ((List.takeWhile_sublist _).subset ha)
            cases hopt : mlookup m a with
            | none => rw [hopt] at hdm; simp at hdm
            | some v => simp [hopt]
          have hdf : ((k :: rest).takeWhile (fun k2 => decide (rep k2 = rep k))).filter
              (fun k2 => (mlookup m k2).isSome &&
                decide (mlookup m k2 ≠ mlookup m k2)) = [] := by
            rw [List.filter_eq_nil_iff]
            intro a ha
            simp
          have hrec := ih ((k :: rest).dropWhile (fun k2 => decide (rep k2 = rep k)))
            (by
              have hle : ((k :: rest).dropWhile
                  (fun k2 => decide (rep k2 = rep k))).length ≤ rest.length := by
                rw [List.dropWhile_cons]
                simp only [decide_True, if_true]
                exact (List.dropWhile_sublist _).length_le
              simp only [List.length_cons] at hf
              omega)
            (fun a ha => hdom a ((List.dropWhile_sublist _).subset ha))
          rw [hms, hdf, hrec]
          simp

/-! ## Claim theorems for the scalar StringEqual path and identity -/

/-- C10: when StringEqual is called on two non-slice values whose plus-v
renderings differ and at least one rendering contains a newline, the
renderings are split on newlines and compared as line sequences through
the sequence diff: the result is exactly linesEqual on the split
renderings, the verdict is false, and the first output line is the
Unexpected-lines title rather than the single-message form. -/
theorem C10_scalar_multiline (name actS expS : String)
    (h1 : actS ≠ expS)
    (h2 : containsNL actS = true ∨ containsNL expS = true) :
    StringEqualScalar name actS expS =
      linesEqual name (splitLines actS) (splitLines expS) ∧
    (StringEqualScalar name actS expS).1 = false ∧
    (StringEqualScalar name actS expS).2.head? =
      some ("Unexpected " ++ name ++ ": " ++
        (if (splitLines expS).length = (splitLines actS).length then
          "both " ++ toString (splitLines expS).length ++ " lines"
         else "exp " ++ toString (splitLines expS).length ++ ", act " ++
          toString (splitLines actS).length ++ " lines")) := by
  have hroute : StringEqualScalar name actS expS =
      linesEqual name (splitLines actS) (splitLines expS) := by
    unfold StringEqualScalar
    rw [if_neg h1, if_pos (by rcases h2 with h | h <;> simp [h])]
  have hsne : ¬ stringSliceEqual (splitLines actS) (splitLines expS) = true := by
    intro hx
    exact h1 (splitLines_injective ((stringSliceEqual_iff _ _).1 hx))
  refine ⟨hroute, ?_, ?_⟩
  · rw [hroute]
    unfold linesEqual linesEqualWith
    rw [if_neg hsne]
  · rw [hroute]
    unfold linesEqual linesEqualWith
    rw [if_neg hsne]
    rfl

/-- Closed instance of C10 at renderings a-newline-b against c. -/
theorem C10_scalar_multiline_witness :
    (("a\nb" : String) ≠ "c" ∧ containsNL "a\nb" = true) ∧
    (StringEqualScalar "s" "a\nb" "c").1 = false :=
  ⟨⟨by decide, by decide⟩,
    (C10_scalar_multiline "s" "a\nb" "c" (by decide) (Or.inl (by decide))).2.1⟩

/-- C8: diffing a sequence or mapping against an exact copy of itself
yields no diff lines and no missing, changed or extra entries: linesEqual,
the scalar StringEqual path, Equal on slices and Equal on mappings all
return true with no output on equal arguments, and the classifier on a
mapping against itself reports three empty lists. -/
theorem C8_identity (name : String) (l : List String) (sc : String)
    {E : Type} [DecidableEq E] (erep : E → String) (es : List E)
    (m : List (K × V)) (krep : K → String) (vrep : V → String)
    (ks0 ks : List K)
    (hnd : (m.map Prod.fst).Nodup)
    (hdom : ∀ k ∈ ks, (mlookup m k).isSome) :
    linesEqual name l l = (true, []) ∧
    StringEqualScalar name sc sc = (true, []) ∧
    EqualSlice name erep es es = (true, []) ∧
    EqualMap name m m krep vrep ks0 ks0 = (true, []) ∧
    collectMapDiffKeys m m krep ks ks = ([], [], []) := by
  refine ⟨?_, ?_, ?_, ?_, ?_⟩
  · unfold linesEqual linesEqualWith
    rw [if_pos ((stringSliceEqual_iff l l).2 rfl)]
  · unfold StringEqualScalar
    rw [if_pos rfl]
  · unfold EqualSlice
    rw [if_pos rfl]
  · unfold EqualMap
    rw [if_pos (mapsDeepEqual_self m hnd)]
  · unfold collectMapDiffKeys
    exact collectMapDiffKeysF_self m krep (ks.length + ks.length) ks (by omega) hdom

/-- Closed instance of C8 on a one-entry mapping and one-line slice. -/
theorem C8_identity_witness :
    ((([((1 : Nat), (2 : Nat))].map Prod.fst).Nodup ∧
      ∀ k ∈ [(1 : Nat)], (mlookup [((1 : Nat), (2 : Nat))] k).isSome) ∧
     True) ∧
    EqualMap "v" [((1 : Nat), (2 : Nat))] [((1 : Nat), (2 : Nat))]
        (fun k => toString k) (fun v => toString v) [1] [1] = (true, []) :=
  ⟨⟨⟨by decide, by decide⟩, trivial⟩,
    (C8_identity "v" ["x"] "x" (fun e : Nat => toString e) [1]
      [((1 : Nat), (2 : Nat))] (fun k => toString k) (fun v => toString v)
      [1] [1] (by decide) (by decide)).2.2.2.1⟩

/-! ## Claim theorems for the key sort -/

/-- C4 counterexample: seven keys where the first renders as b and the six
others render as a.  The gap-6 shell pass of sort.Sort swaps index 6 with
index 0, moving the last a-key in front of the other five a-keys, and the
following stable insertion sort keeps it there: the keys with identical
renderings do not keep their extraction order, so the sort of
collectAndSortMapKeys is not the stable sort the claim describes (the
stable result is listed for comparison). -/
theorem C4_stable_sort_counterexample :
    collectAndSortMapKeys (fun k => if k = 0 then "b" else "a")
        [0, 1, 2, 3, 4, 5, 6] = [6, 1, 2, 3, 4, 5, 0] ∧
    specStableSortKeys (fun k => if k = 0 then "b" else "a")
        [0, 1, 2, 3, 4, 5, 6] = [1, 2, 3, 4, 5, 6, 0] ∧
    collectAndSortMapKeys (fun k => if k = 0 then "b" else "a")
        [0, 1, 2, 3, 4, 5, 6] ≠
      specStableSortKeys (fun k => if k = 0 then "b" else "a")
        [0, 1, 2, 3, 4, 5, 6] :=
  ⟨by decide, by decide, by decide⟩

/-- C4 amended: the key-collection step sorts the keys ascending by their
string representation — the result is a permutation of the extracted keys
whose renderings are nondecreasing — but the sort is sort.Sort, which is
not stable: keys with identical representations need not keep their
extraction order.  Stated for extraction orders of at most 12 keys, the
range where the shell-pass model is faithful. -/
theorem C4_sort_ascending_amended (rep : K → String) (l : List K)
    (h : l.length ≤ 12) :
    List.Perm (collectAndSortMapKeys rep l) l ∧
    SortedKeys rep (collectAndSortMapKeys rep l) := by
  constructor
  · exact (List.perm_insertionSort _ _).trans (shellPass_perm rep l h)
  · exact goSortKeys_sorted rep l

/-- Closed instance of the amended C4 at the counterexample input. -/
theorem C4_sort_ascending_amended_witness :
    ([0, 1, 2, 3, 4, 5, 6] : List Nat).length ≤ 12 ∧
    SortedKeys (fun k => if k = 0 then "b" else "a")
      (collectAndSortMapKeys (fun k => if k = 0 then "b" else "a")
        [0, 1, 2, 3, 4, 5, 6]) :=
  ⟨by decide,
    (C4_sort_ascending_amended (fun k => if k = 0 then "b" else "a")
      [0, 1, 2, 3, 4, 5, 6] (by decide)).2⟩

/-! ## Claim theorems for the alignment engine -/

/-- C1: for every pair of sequence lengths n, m and every non-negative
cost model, the alignment engine invoked by linesEqual returns a total cost
equal to the minimum-cost value D n m of the dynamic programming table,
together with a matching achieving that cost: the returned cost equals
D n m, the backtrace is a valid alignment achieving exactly that cost, and
no valid alignment costs less. -/
theorem C1_align_min_cost (sub : Nat → Nat → Nat) (del ins : Nat → Nat) (n m : Nat) :
    (matchFn n m sub del ins).1 = D sub del ins n m ∧
    traceCost sub del ins (trace sub del ins n m) = D sub del ins n m ∧
    Aligns n m (trace sub del ins n m) ∧
    ∀ ms : List Move, Aligns n m ms →
      D sub del ins n m ≤ traceCost sub del ins ms := by
  refine ⟨?_, traceCost_trace sub del ins n m, aligns_trace sub del ins n m, ?_⟩
  · rw [matchFn_eq]
  · intro ms hms
    exact D_le_aligns sub del ins hms

/-- Closed instance of C1: the engine cost at lengths 1, 1 under the
all-different cost model, compared against the explicit indel alignment. -/
theorem C1_align_min_cost_witness :
    D (fun _ _ => 2) (fun _ => 1) (fun _ => 1) 1 1 ≤
      traceCost (fun _ _ => 2) (fun _ => 1) (fun _ => 1) [Move.ins 0, Move.del 0] :=
  (C1_align_min_cost (fun _ _ => 2) (fun _ => 1) (fun _ => 1) 1 1).2.2.2
    [Move.ins 0, Move.del 0] (Aligns.ins (Aligns.del Aligns.nil))

/-- C2 counterexample: with the tie-break the claim states (substitution
preferred over deletion plus insertion at equal cost), the diff of the
package's own ExampleStringEqual scenario would interleave removed and
added lines, contradicting the grouped output documented by that example
(removed lines 2 and 3 first, then added lines 2 and 3).  The left side is
the substitution-preferring renderer on the example input; the right side
is the output block the package test documents. -/
theorem C2_subst_tiebreak_counterexample :
    linesEqual "s" ["", "Extra", "Modified act"] ["", "Modified exp", "Missing"] ≠
      (false, ["Unexpected s: both 3 lines",
        "  Difference(expected ---  actual +++)",
        "    ---   2: \"Modified exp\"",
        "    ---   3: \"Missing\"",
        "    +++   2: \"Extra\"",
        "    +++   3: \"Modified act\""]) := by decide

/-- C2 amended: at a cost tie the engine prefers deletion plus insertion
over a substitution (as the package example output fixes); with that
tie-break the renderer reproduces the package's documented outputs, and for
expected [1, 2] against actual [3, 2] it still renders exactly one changed
pair, the line for removed position 1 followed by the line for added
position 1, with summary both 2 lines. -/
theorem C2_tiebreak_amended :
    linesEqualGo "s" ["3", "2"] ["1", "2"] =
      (false, ["Unexpected s: both 2 lines",
        "  Difference(expected ---  actual +++)",
        "    ---   1: \"1\"",
        "    +++   1: \"3\""]) ∧
    linesEqualGo "s" ["", "Extra", "Modified act"] ["", "Modified exp", "Missing"] =
      (false, ["Unexpected s: both 3 lines",
        "  Difference(expected ---  actual +++)",
        "    ---   2: \"Modified exp\"",
        "    ---   3: \"Missing\"",
        "    +++   2: \"Extra\"",
        "    +++   3: \"Modified act\""]) ∧
    linesEqualGo "s" ["2", "3"] ["1", "2"] =
      (false, ["Unexpected s: both 2 lines",
        "  Difference(expected ---  actual +++)",
        "    ---   1: \"1\"",
        "    +++   2: \"3\""]) := by
  refine ⟨by decide, by decide, by decide⟩

/-- C7: the matching produced by the alignment engine is monotone; if
expected positions i and i2 are both matched with i < i2, the matched
actual positions satisfy j < j2 (no crossing pairs). -/
theorem C7_matching_monotone (sub : Nat → Nat → Nat) (del ins : Nat → Nat)
    (n m i j i2 j2 : Nat)
    (h1 : (i, j) ∈ pairsOf (traceFuel sub del ins (n + m) n m))
    (h2 : (i2, j2) ∈ pairsOf (traceFuel sub del ins (n + m) n m))
    (hlt : i < i2) : j < j2 := by
  rw [traceFuel_eq sub del ins (n + m) n m (le_refl _)] at h1 h2
  exact aligns_pairs_mono (aligns_trace sub del ins n m) h1 h2 hlt

/-- Closed instance of C7 at lengths 2, 2 with the all-equal cost model,
where the engine matches positions 0 and 1 diagonally. -/
theorem C7_matching_monotone_witness :
    ((0, 0) ∈ pairsOf (traceFuel (fun _ _ => 0) (fun _ => 1) (fun _ => 1) 4 2 2) ∧
     (1, 1) ∈ pairsOf (traceFuel (fun _ _ => 0) (fun _ => 1) (fun _ => 1) 4 2 2)) ∧
    0 < 1 :=
  ⟨⟨by decide, by decide⟩,
    C7_matching_monotone (fun _ _ => 0) (fun _ => 1) (fun _ => 1) 2 2 0 0 1 1
      (by decide) (by decide) (by decide)⟩

end GolangPlusTesting
